import Mathlib

/-!
Verification of the substudy subtitle core: a shallow embedding of the
timestamp codec, SRT cue parser, cleaner, alignment engine and the CLI
dispatch layer (src/substudy/src/main.rs), with theorems settling the
frozen claims about the specification.

The library modules (time, srt, clean, align, lang) are not present in
the repository snapshot; where a definition embeds one of them it is
modelled from the specification and its doc comment says so.
-/

namespace Substudy

/-- A decoded text line, as a list of characters. -/
abbrev Line := List Char

/-- Non-newline whitespace: space, tab, carriage return. -/
def isWS (c : Char) : Bool := c = ' ' || c = '\t' || c = '\r'

/-- ASCII decimal digit test. -/
def isDigitC (c : Char) : Bool := 48 ≤ c.toNat && c.toNat ≤ 57

/-- Numeric value of a digit character. -/
def dval (c : Char) : Nat := c.toNat - 48

/-- The digit character for a value below ten. -/
def digitChar (d : Nat) : Char := Char.ofNat (48 + d)

/-- Big-endian decimal digits of a natural number (never empty). -/
def natToDigits (n : Nat) : List Char :=
  if n < 10 then [digitChar n] else natToDigits (n / 10) ++ [digitChar (n % 10)]
decreasing_by exact Nat.div_lt_self (by omega) (by omega)

/-- Decimal digits of `n`, left-padded with zeros to width `w`
(wider if `n` needs more digits). -/
def padNum (w n : Nat) : List Char :=
  List.replicate (w - (natToDigits n).length) '0' ++ natToDigits n

/-- Value of a big-endian digit run. -/
def digitsVal (ds : List Char) : Nat := ds.foldl (fun a c => a * 10 + dval c) 0

/-- Modelled from the spec: `Time::format` (module `time`, absent from the
snapshot) renders a millisecond count as `HH:MM:SS,mmm` with zero-padded
fields and exactly three millisecond digits; it is total. -/
def formatTime (t : Nat) : Line :=
  padNum 2 (t / 3600000) ++ ':' :: padNum 2 (t / 60000 % 60) ++
    ':' :: padNum 2 (t / 1000 % 60) ++ ',' :: padNum 3 (t % 1000)

/-- Split a line into its leading digit run and the remainder. -/
def digitRun (cs : Line) : Line × Line := (cs.takeWhile isDigitC, cs.dropWhile isDigitC)

/-- Parse a non-empty leading digit run. -/
def parseNumField (cs : Line) : Option (Line × Line) :=
  let p := digitRun cs
  if p.1.isEmpty then none else some p

/-- Consume one expected character. -/
def expectChar (c : Char) : Line → Option Line
  | x :: xs => if x = c then some xs else none
  | [] => none

/-- Modelled from the spec: the timestamp grammar of `Time::parse`
(module `time`, absent from the snapshot): hours, minutes and seconds as
non-empty digit runs separated by colons, a comma, exactly three
millisecond digits; minutes and seconds at most 59.  Returns the parsed
millisecond count and the unconsumed remainder. -/
def parseTimeLead (cs : Line) : Option (Nat × Line) :=
  (parseNumField cs).bind fun p1 =>
  (expectChar ':' p1.2).bind fun r1 =>
  (parseNumField r1).bind fun p2 =>
  (expectChar ':' p2.2).bind fun r2 =>
  (parseNumField r2).bind fun p3 =>
  (expectChar ',' p3.2).bind fun r3 =>
  (parseNumField r3).bind fun p4 =>
  if p4.1.length = 3 ∧ digitsVal p2.1 ≤ 59 ∧ digitsVal p3.1 ≤ 59 then
    some (digitsVal p1.1 * 3600000 + digitsVal p2.1 * 60000 +
      digitsVal p3.1 * 1000 + digitsVal p4.1, p4.2)
  else none

/-- `Time::parse` on a whole line: the timestamp must span the line. -/
def parseTimeAll (cs : Line) : Option Nat :=
  match parseTimeLead cs with
  | some (t, []) => some t
  | _ => none

/-- The error taxonomy of the core (spec §7). -/
inductive Err where
  | undecodableFile : Err
  | malformedTimestamp (line : Line) : Err
  | malformedCue (pos : Nat) : Err
  | invalidLanguageCode (code : String) : Err
  | ioError (msg : String) : Err
deriving DecidableEq, Repr

/-- One subtitle entry: start time, end time (embedded as `stop`, since
`end` is reserved), and the on-screen text lines in order. -/
structure Cue where
  start : Nat
  stop : Nat
  lines : List Line
deriving DecidableEq, Repr

/-- An ordered sequence of cues for one language track. -/
structure SubtitleFile where
  subs : List Cue
deriving DecidableEq, Repr

/-- Split a character stream into lines at newline characters. -/
def splitLinesCh : List Char → List Line
  | [] => [[]]
  | c :: cs =>
    if c = '\n' then [] :: splitLinesCh cs
    else
      match splitLinesCh cs with
      | l :: ls => (c :: l) :: ls
      | [] => [[c]]

/-- Join lines with single newline separators. -/
def joinLinesCh : List Line → List Char
  | [] => []
  | [l] => l
  | l :: ls => l ++ '\n' :: joinLinesCh ls

/-- A line consisting solely of (non-newline) whitespace. -/
def isBlank (l : Line) : Bool := l.all isWS

/-- Remove trailing whitespace. -/
def trimRight (l : Line) : Line := (l.reverse.dropWhile isWS).reverse

/-- Remove leading and trailing whitespace. -/
def trim (l : Line) : Line := trimRight (l.dropWhile isWS)

/-- Accumulate maximal runs of non-blank lines (`cur` holds the current
run, reversed); blank lines separate blocks and are dropped. -/
def groupBlocksAux : List Line → List Line → List (List Line)
  | cur, [] => if cur.isEmpty then [] else [cur.reverse]
  | cur, l :: ls =>
    if isBlank l then
      if cur.isEmpty then groupBlocksAux [] ls
      else cur.reverse :: groupBlocksAux [] ls
    else groupBlocksAux (l :: cur) ls

/-- Split a line sequence into blocks separated by blank lines, tolerating
extra blank lines (spec §4.2). -/
def groupBlocks (ls : List Line) : List (List Line) := groupBlocksAux [] ls

/-- A line that is just a cue index: digits only after trimming. -/
def isIndexLine (l : Line) : Bool :=
  let t := trim l
  !t.isEmpty && t.all isDigitC

/-- Consume the arrow token of a timestamp line. -/
def stripArrow : Line → Option Line
  | ' ' :: '-' :: '-' :: '>' :: ' ' :: r => some r
  | _ => none

/-- Parse a `start --> end` timestamp line (tolerating surrounding
whitespace). -/
def parseTsLine (l : Line) : Option (Nat × Nat) :=
  (parseTimeLead (trim l)).bind fun p1 =>
  (stripArrow p1.2).bind fun r =>
  (parseTimeAll r).map fun t2 => (p1.1, t2)

/-- Modelled from the spec: parsing of one cue block (module `srt`,
absent from the snapshot): an untrusted optional index line, a timestamp
line, and at least one text line; otherwise `MalformedCue` naming the
block's position.  The index line is dropped here. -/
def stripIndex (b : List Line) : List Line :=
  match b with
  | l :: ls => if isIndexLine l then ls else b
  | [] => b

/-- Parse the body of a block after the untrusted index line was
dropped: a timestamp line then at least one text line (trailing
whitespace trimmed). -/
def parseBlockBody (pos : Nat) (rest : List Line) : Except Err Cue :=
  match rest with
  | tsl :: txt =>
    match parseTsLine tsl with
    | some (s, e) =>
      if txt.isEmpty then Except.error (Err.malformedCue pos)
      else Except.ok ⟨s, e, txt.map trimRight⟩
    | none => Except.error (Err.malformedCue pos)
  | [] => Except.error (Err.malformedCue pos)

def parseBlock (pos : Nat) (b : List Line) : Except Err Cue :=
  parseBlockBody pos (stripIndex b)

/-- Parse a sequence of blocks; a malformed final block (trailing
garbage) is tolerated, a malformed block elsewhere fails the file. -/
def parseBlocks (pos : Nat) : List (List Line) → Except Err (List Cue)
  | [] => Except.ok []
  | [b] =>
    match parseBlock pos b with
    | Except.ok c => Except.ok [c]
    | Except.error _ => Except.ok []
  | b :: bs =>
    match parseBlock pos b with
    | Except.ok c => (parseBlocks (pos + 1) bs).map (fun cs => c :: cs)
    | Except.error e => Except.error e

/-- Comparison by start time, used for the parser's final stable sort. -/
def cueLEP (c d : Cue) : Prop := c.start ≤ d.start

instance : DecidableRel cueLEP := fun c d => Nat.decLe c.start d.start

instance : IsTotal Cue cueLEP := ⟨fun c d => Nat.le_total c.start d.start⟩

instance : IsTrans Cue cueLEP := ⟨fun _ _ _ h1 h2 => Nat.le_trans h1 h2⟩

/-- Modelled from the spec: the Cue Parser (module `srt`, absent from the
snapshot) over a decoded character stream: split into lines, group into
blank-line-separated blocks, parse each block, and stably sort the cues
by start time. -/
def parseSubs (buf : List Char) : Except Err SubtitleFile :=
  (parseBlocks 1 (groupBlocks (splitLinesCh buf))).map fun cs =>
    ⟨cs.insertionSort cueLEP⟩

/-- Render a timestamp line. -/
def formatTsLine (s e : Nat) : Line :=
  formatTime s ++ ' ' :: '-' :: '-' :: '>' :: ' ' :: formatTime e

/-- The lines of one rendered block, without the trailing blank line. -/
def blockContent (idx : Nat) (c : Cue) : List Line :=
  natToDigits idx :: formatTsLine c.start c.stop :: c.lines

/-- Render cues to their line sequence, renumbering from `i`; each block
is followed by one blank separator line. -/
def formatBlocksFrom (i : Nat) : List Cue → List Line
  | [] => []
  | c :: cs => blockContent i c ++ [] :: formatBlocksFrom (i + 1) cs

/-- Modelled from the spec: `SubtitleFile::to_string` (module `srt`,
absent from the snapshot): render blocks renumbered from 1 in the
standard textual cue format. -/
def formatFile (f : SubtitleFile) : List Char :=
  joinLinesCh (formatBlocksFrom 1 f.subs)

/-- Invariant on the cue list that the parser guarantees and the
serializer requires for its text lines. -/
def WFlines (cs : List Cue) : Prop :=
  ∀ c ∈ cs, c.lines ≠ [] ∧
    ∀ l ∈ c.lines, '\n' ∉ l ∧ isBlank l = false ∧ trimRight l = l

/-- The Subtitle File invariant: cues sorted by start, non-empty
newline-free non-blank trimmed text lines. -/
def WFfile (f : SubtitleFile) : Prop :=
  List.Pairwise cueLEP f.subs ∧ WFlines f.subs

/-- Alphabetic ASCII character test (cleaner rule 3). -/
def isAlphaC (c : Char) : Bool :=
  (97 ≤ c.toNat && c.toNat ≤ 122) || (65 ≤ c.toNat && c.toNat ≤ 90)

/-- A line with no alphabetic content at all. -/
def noAlpha (l : Line) : Bool := l.all (fun c => !isAlphaC c)

/-- Tag-stripping state machine: `some close` means we are inside a tag
waiting for the closing delimiter. -/
def stripMarkupGo : Option Char → Line → Line
  | _, [] => []
  | some close, c :: cs =>
    if c = close then stripMarkupGo none cs else stripMarkupGo (some close) cs
  | none, c :: cs =>
    if c = '<' then stripMarkupGo (some '>') cs
    else if c = '[' then stripMarkupGo (some ']') cs
    else c :: stripMarkupGo none cs

/-- Modelled from the spec: cleaner rule 2 (module `clean`, absent from
the snapshot): strip bracketed and angle-bracketed inline tags from a
line without altering the surrounding text. -/
def stripMarkup (l : Line) : Line := stripMarkupGo none l

/-- Whitespace-collapsing state machine: the flag records whether the
previous character belonged to a whitespace run. -/
def collapseWsGo : Bool → Line → Line
  | _, [] => []
  | inRun, c :: cs =>
    if isWS c then
      if inRun then collapseWsGo true cs else ' ' :: collapseWsGo true cs
    else c :: collapseWsGo false cs

/-- Modelled from the spec: cleaner rule 4 (module `clean`, absent from
the snapshot): collapse whitespace runs to single spaces. -/
def collapseWs (l : Line) : Line := collapseWsGo false l

/-- Rule 4 applied to one line: collapse whitespace, then trim. -/
def tidyLine (l : Line) : Line := trim (collapseWs l)

/-- Rule 3 trigger: the cue's only line has no alphabetic content. -/
def isCreditsOnly : List Line → Bool
  | [l] => noAlpha l
  | _ => false

/-- Modelled from the spec: the Cleaner's per-cue pass (module `clean`,
absent from the snapshot), rules 1-4 in order: drop blank cues, strip
markup and drop emptied lines, drop single-line credit cues, tidy
whitespace.  Timing is never altered. -/
def cleanCue (c : Cue) : Option Cue :=
  if c.lines.all (fun l => (trim l).isEmpty) then none
  else
    let ls := (c.lines.map stripMarkup).filter (fun l => !(trim l).isEmpty)
    if ls.isEmpty then none
    else if isCreditsOnly ls then none
    else some ⟨c.start, c.stop, ls.map tidyLine⟩

/-- Modelled from the spec: `clean_subtitle_file` (module `clean`,
absent from the snapshot). -/
def clean_subtitle_file (f : SubtitleFile) : SubtitleFile :=
  ⟨f.subs.filterMap cleanCue⟩

/-- A timed interval carrying optional foreign and native text. -/
structure BiCue where
  start : Nat
  stop : Nat
  foreign : List Line
  native : List Line
deriving DecidableEq, Repr

/-- All cue boundary points of a cue list. -/
def cuePoints (cs : List Cue) : List Nat :=
  cs.foldr (fun c acc => c.start :: c.stop :: acc) []

/-- Drop consecutive duplicates from a sorted point list. -/
def dedupSorted : List Nat → List Nat
  | [] => []
  | [a] => [a]
  | a :: b :: rest =>
    if a = b then dedupSorted (b :: rest) else a :: dedupSorted (b :: rest)

/-- The lines of the cue active at time `t` (half-open `[start, stop)`),
searching the sorted cue list in order. -/
def activeLines (cs : List Cue) (t : Nat) : List Line :=
  match cs.find? (fun c => decide (c.start ≤ t) && decide (t < c.stop)) with
  | some c => c.lines
  | none => []

/-- Modelled from the spec: the sweep over consecutive boundary points
(module `align`, absent from the snapshot); intervals where both sides
are empty are dropped. -/
def sweep (fcs ncs : List Cue) : List Nat → List BiCue
  | a :: b :: rest =>
    let fl := activeLines fcs a
    let nl := activeLines ncs a
    let tail := sweep fcs ncs (b :: rest)
    if fl.isEmpty && nl.isEmpty then tail else ⟨a, b, fl, nl⟩ :: tail
  | _ => []

/-- The merge pass's accumulator loop: `acc` is the bilingual cue being
extended. -/
def mergeRunGo (acc : BiCue) : List BiCue → List BiCue
  | [] => [acc]
  | d :: rest =>
    if acc.foreign = d.foreign ∧ acc.native = d.native then
      mergeRunGo ⟨acc.start, d.stop, acc.foreign, acc.native⟩ rest
    else acc :: mergeRunGo d rest

/-- Modelled from the spec: the merge pass (module `align`, absent from
the snapshot): coalesce consecutive bilingual cues carrying identical
text pairs. -/
def mergeRun : List BiCue → List BiCue
  | [] => []
  | c :: rest => mergeRunGo c rest

/-- Modelled from the spec: the Alignment Engine `combine_files`
(module `align`, absent from the snapshot), bilingual view: sweep over
the sorted deduplicated boundary points of both inputs, then merge. -/
def combineBilingual (f n : SubtitleFile) : List BiCue :=
  mergeRun (sweep f.subs n.subs
    (dedupSorted ((cuePoints f.subs ++ cuePoints n.subs).insertionSort (· ≤ ·))))

/-- Serialize a bilingual cue as a cue whose text stacks the foreign
lines above the native lines (spec §4.5). -/
def biToSubtitleFile (bs : List BiCue) : SubtitleFile :=
  ⟨bs.map (fun b => ⟨b.start, b.stop, b.foreign ++ b.native⟩)⟩

/-- `combine_files` as the CLI consumes it: the combined Subtitle File. -/
def combine_files (f n : SubtitleFile) : SubtitleFile :=
  biToSubtitleFile (combineBilingual f n)

/-- A file path as the CLI receives it. -/
abbrev FsPath := String

/-- The observable file system: what reading and decoding a path yields.
Failures of the read or of the encoding-recovery step (spec §4.2)
surface as errors here (`ioError`, `undecodableFile`). -/
abbrev Fs := FsPath → Except Err (List Char)

/-- `SubtitleFile::cleaned_from_path`, as called from
src/substudy/src/main.rs: read and decode the file, parse it, then run
the Cleaner (spec control flow: raw bytes → Cue Parser → Cleaner). -/
def cleaned_from_path (fs : Fs) (p : FsPath) : Except Err SubtitleFile :=
  (fs p).bind fun buf => (parseSubs buf).map clean_subtitle_file

/-- Embeds `cmd_clean` (src/substudy/src/main.rs lines 266-270): load
the cleaned file and print its serialization. -/
def cmd_clean (fs : Fs) (p : FsPath) : Except Err (List Char) :=
  (cleaned_from_path fs p).map formatFile

/-- Embeds `cmd_combine` (src/substudy/src/main.rs lines 272-277): load
both cleaned files, combine them, print the serialization. -/
def cmd_combine (fs : Fs) (p1 p2 : FsPath) : Except Err (List Char) :=
  (cleaned_from_path fs p1).bind fun file1 =>
  (cleaned_from_path fs p2).bind fun file2 =>
  Except.ok (formatFile (combine_files file1 file2))

/-- Embeds the `ExportFormat` subcommand enum
(src/substudy/src/main.rs lines 115-152): the `Tracks` variant has no
native-subtitles field. -/
inductive ExportFormat where
  | csv (video : FsPath) (foreign_subs : FsPath) (native_subs : Option FsPath)
  | review (video : FsPath) (foreign_subs : FsPath) (native_subs : Option FsPath)
  | tracks (video : FsPath) (foreign_subs : FsPath)
deriving DecidableEq, Repr

/-- Embeds `ExportFormat::name` (src/substudy/src/main.rs lines 156-162). -/
def ExportFormat.name : ExportFormat → String
  | ExportFormat.csv _ _ _ => "csv"
  | ExportFormat.review _ _ _ => "review"
  | ExportFormat.tracks _ _ => "tracks"

/-- Embeds `ExportFormat::native_subs`
(src/substudy/src/main.rs lines 189-199). -/
def ExportFormat.native_subs : ExportFormat → Option FsPath
  | ExportFormat.csv _ _ n => n
  | ExportFormat.review _ _ n => n
  | ExportFormat.tracks _ _ => none

/-- The three exporter entry points `cmd_export` can dispatch to. -/
inductive ExportKind where
  | csv
  | review
  | tracks
deriving DecidableEq, Repr

/-- Embeds the `match kind` dispatch of `cmd_export`
(src/substudy/src/main.rs lines 307-312): `none` is the
`panic!("Uknown export type")` arm. -/
def exportDispatch (kind : String) : Option ExportKind :=
  if kind = "csv" then some ExportKind.csv
  else if kind = "review" then some ExportKind.review
  else if kind = "tracks" then some ExportKind.tracks
  else none

/-- A validated language, carrying its ISO 639 code. -/
abbrev Lang := String

/-- Modelled from the spec: `Lang::iso639` (module `lang`, absent from
the snapshot): an unrecognized ISO 639 tag fails with
`InvalidLanguageCode`; which tags are recognized is abstracted as a
predicate. -/
def iso639 (recognized : String → Bool) (code : String) : Except Err Lang :=
  if recognized code then Except.ok code
  else Except.error (Err.invalidLanguageCode code)

/-- Embeds `cmd_translate` (src/substudy/src/main.rs lines 350-356):
load the cleaned file, validate the language code, call the translation
service, print the result.  The remote service is a parameter. -/
def cmd_translate (fs : Fs) (recognized : String → Bool)
    (svc : SubtitleFile → Lang → Except Err SubtitleFile)
    (p : FsPath) (native_lang : String) : Except Err (List Char) :=
  (cleaned_from_path fs p).bind fun file =>
  (iso639 recognized native_lang).bind fun lang =>
  (svc file lang).map formatFile

/-- The core CLI commands this embedding runs purely (the other
commands need the media prober or the remote AI service). -/
inductive Command where
  | clean (subs : FsPath)
  | combine (foreign_subs : FsPath) (native_subs : FsPath)
deriving DecidableEq, Repr

/-- The dispatch of `main` (src/substudy/src/main.rs lines 231-236) for
the pure core commands: the serialized artifact that would be printed. -/
def runCommand (fs : Fs) : Command → Except Err (List Char)
  | Command.clean p => cmd_clean fs p
  | Command.combine p1 p2 => cmd_combine fs p1 p2

/-- Modelled from the spec: the process-level behavior of the fallible
`main` (src/substudy/src/main.rs lines 224-264, exit mapping from spec
§6): success prints the serialized artifact on standard output and
exits 0; any failure exits 1. -/
def procRun (fs : Fs) (c : Command) : Nat × List Char :=
  match runCommand fs c with
  | Except.ok out => (0, out)
  | Except.error _ => (1, [])

/-- `Time::parse` with the spec's error taxonomy: a line that is not a
full timestamp fails with `MalformedTimestamp`. -/
def parseTime (cs : Line) : Except Err Nat :=
  match parseTimeAll cs with
  | some t => Except.ok t
  | none => Except.error (Err.malformedTimestamp cs)

/-- A foreign-language demonstration buffer. -/
def bufA : List Char := "1\n00:00:01,000 --> 00:00:03,000\nBonjour\n".data

/-- A native-language demonstration buffer. -/
def bufB : List Char := "1\n00:00:01,500 --> 00:00:04,000\nHello\n".data

/-- A two-cue demonstration buffer, deliberately out of order. -/
def bufC : List Char :=
  "1\n00:00:05,000 --> 00:00:06,000\nSalut\n\n2\n00:00:01,000 --> 00:00:03,000\nBonjour\n".data

/-- A file system holding the two demonstration files. -/
def fsAB : Fs := fun p =>
  if p = "foreign.srt" then Except.ok bufA else Except.ok bufB

/-- A file system on which every read fails. -/
def fsFail : Fs := fun _ => Except.error (Err.ioError "missing")

/-- The cleaned parse of `bufA`. -/
def fileA : SubtitleFile := ⟨[⟨1000, 3000, ["Bonjour".data]⟩]⟩

/-- The cleaned parse of `bufB`. -/
def fileB : SubtitleFile := ⟨[⟨1500, 4000, ["Hello".data]⟩]⟩

theorem dval_digitChar : ∀ d, d < 10 → dval (digitChar d) = d := by decide

theorem isDigitC_digitChar : ∀ d, d < 10 → isDigitC (digitChar d) = true := by decide

theorem natToDigits_all_digit (n : Nat) : ∀ c ∈ natToDigits n, isDigitC c = true := by
  induction n using natToDigits.induct with
  | case1 n h =>
    rw [natToDigits, if_pos h]
    intro c hc
    simp only [List.mem_singleton] at hc
    subst hc
    exact isDigitC_digitChar n h
  | case2 n h ih =>
    rw [natToDigits, if_neg h]
    intro c hc
    rcases List.mem_append.1 hc with h1 | h2
    · exact ih c h1
    · simp only [List.mem_singleton] at h2
      subst h2
      exact isDigitC_digitChar _ (Nat.mod_lt _ (by omega))

theorem natToDigits_ne_nil (n : Nat) : natToDigits n ≠ [] := by
  rw [natToDigits]
  split
  · simp
  · simp

theorem digitsVal_natToDigits (n : Nat) : digitsVal (natToDigits n) = n := by
  induction n using natToDigits.induct with
  | case1 n h =>
    rw [natToDigits, if_pos h]
    simp [digitsVal, dval_digitChar n h]
  | case2 n h ih =>
    rw [natToDigits, if_neg h]
    unfold digitsVal at *
    rw [List.foldl_append, ih]
    simp [dval_digitChar _ (Nat.mod_lt n (by omega))]
    omega

theorem digitsVal_padNum (w n : Nat) : digitsVal (padNum w n) = n := by
  unfold padNum digitsVal
  rw [List.foldl_append]
  have hz : ∀ k, List.foldl (fun a c => a * 10 + dval c) 0 (List.replicate k '0') = 0 := by
    intro k
    induction k with
    | zero => rfl
    | succ m ih => simpa [List.replicate_succ, dval] using ih
  rw [hz]
  exact digitsVal_natToDigits n

theorem padNum_all_digit (w n : Nat) : ∀ c ∈ padNum w n, isDigitC c = true := by
  intro c hc
  rcases List.mem_append.1 hc with h1 | h2
  · have : c = '0' := List.eq_of_mem_replicate h1
    subst this
    decide
  · exact natToDigits_all_digit n c h2

theorem padNum_ne_nil (w n : Nat) : padNum w n ≠ [] := by
  unfold padNum
  intro h
  rcases List.append_eq_nil.1 h with ⟨-, h2⟩
  exact natToDigits_ne_nil n h2

theorem natToDigits_length_lt_10 {n : Nat} (h : n < 10) : (natToDigits n).length = 1 := by
  rw [natToDigits, if_pos h]
  rfl

theorem natToDigits_length_lt_100 {n : Nat} (h : n < 100) : (natToDigits n).length ≤ 2 := by
  rw [natToDigits]
  split
  · simp
  · rw [List.length_append, natToDigits_length_lt_10 (by omega)]
    simp

theorem natToDigits_length_lt_1000 {n : Nat} (h : n < 1000) : (natToDigits n).length ≤ 3 := by
  rw [natToDigits]
  split
  · simp
  · rw [List.length_append]
    have := natToDigits_length_lt_100 (n := n / 10) (by omega)
    simp
    omega

theorem padNum_length {w n : Nat} (h : (natToDigits n).length ≤ w) :
    (padNum w n).length = w := by
  unfold padNum
  rw [List.length_append, List.length_replicate]
  omega

theorem parseNumField_append {ds r : Line} (hne : ds ≠ [])
    (hall : ∀ c ∈ ds, isDigitC c = true)
    (hr : ∀ c, r.head? = some c → isDigitC c = false) :
    parseNumField (ds ++ r) = some (ds, r) := by
  have ht : r.takeWhile isDigitC = [] := by
    cases r with
    | nil => rfl
    | cons x xs =>
      have := hr x rfl
      simp [List.takeWhile, this]
  have hd : r.dropWhile isDigitC = r := by
    cases r with
    | nil => rfl
    | cons x xs =>
      have := hr x rfl
      simp [List.dropWhile, this]
  unfold parseNumField digitRun
  rw [List.takeWhile_append_of_pos hall, List.dropWhile_append_of_pos hall, ht, hd]
  simp [hne]

theorem head?_cons_not_digit {x : Char} {xs : Line} (h : isDigitC x = false) :
    ∀ c, (x :: xs).head? = some c → isDigitC c = false := by
  intro c hc
  simp only [List.head?_cons, Option.some.injEq] at hc
  subst hc
  exact h

theorem parseTimeLead_formatTime (t : Nat) (r : Line)
    (hr : ∀ c, r.head? = some c → isDigitC c = false) :
    parseTimeLead (formatTime t ++ r) = some (t, r) := by
  have hcolon : isDigitC ':' = false := by decide
  have hcomma : isDigitC ',' = false := by decide
  have ha : formatTime t ++ r =
      padNum 2 (t / 3600000) ++ ':' :: (padNum 2 (t / 60000 % 60) ++
        ':' :: (padNum 2 (t / 1000 % 60) ++ ',' :: (padNum 3 (t % 1000) ++ r))) := by
    unfold formatTime
    simp [List.append_assoc]
  rw [ha]
  unfold parseTimeLead
  rw [parseNumField_append (padNum_ne_nil _ _) (padNum_all_digit _ _)
    (head?_cons_not_digit hcolon)]
  simp only [Option.some_bind, expectChar, if_pos rfl, if_true]
  rw [parseNumField_append (padNum_ne_nil _ _) (padNum_all_digit _ _)
    (head?_cons_not_digit hcolon)]
  simp only [Option.some_bind, expectChar, if_pos rfl, if_true]
  rw [parseNumField_append (padNum_ne_nil _ _) (padNum_all_digit _ _)
    (head?_cons_not_digit hcomma)]
  simp only [Option.some_bind, expectChar, if_pos rfl, if_true]
  rw [parseNumField_append (padNum_ne_nil _ _) (padNum_all_digit _ _) hr]
  have hlen : (padNum 3 (t % 1000)).length = 3 :=
    padNum_length (natToDigits_length_lt_1000 (Nat.mod_lt _ (by omega)))
  have hm : digitsVal (padNum 2 (t / 60000 % 60)) = t / 60000 % 60 := digitsVal_padNum _ _
  have hs : digitsVal (padNum 2 (t / 1000 % 60)) = t / 1000 % 60 := digitsVal_padNum _ _
  simp only [Option.some_bind]
  rw [if_pos ⟨hlen, by rw [hm]; omega, by rw [hs]; omega⟩]
  rw [digitsVal_padNum, hm, hs, digitsVal_padNum]
  congr 1
  congr 1
  omega

theorem parseTimeAll_formatTime (t : Nat) : parseTimeAll (formatTime t) = some t := by
  unfold parseTimeAll
  have h : parseTimeLead (formatTime t ++ []) = some (t, []) :=
    parseTimeLead_formatTime t [] (by intro c hc; cases hc)
  rw [List.append_nil] at h
  rw [h]

theorem splitLinesCh_ne_nil (cs : List Char) : splitLinesCh cs ≠ [] := by
  induction cs with
  | nil => simp [splitLinesCh]
  | cons c cs ih =>
    unfold splitLinesCh
    split
    · simp
    · cases h : splitLinesCh cs with
      | nil => simp
      | cons l ls => simp

theorem splitLinesCh_no_newline (cs : List Char) :
    ∀ l ∈ splitLinesCh cs, '\n' ∉ l := by
  induction cs with
  | nil =>
    intro l hl
    simp [splitLinesCh] at hl
    simp [hl]
  | cons c cs ih =>
    intro l hl
    unfold splitLinesCh at hl
    split at hl
    · rcases List.mem_cons.1 hl with h | h
      · simp [h]
      · exact ih l h
    · rename_i hc
      cases h : splitLinesCh cs with
      | nil => exact absurd h (splitLinesCh_ne_nil cs)
      | cons l0 ls =>
        rw [h] at hl
        rcases List.mem_cons.1 hl with h1 | h1
        · subst h1
          intro hmem
          rcases List.mem_cons.1 hmem with h2 | h2
          · exact hc h2.symm
          · exact ih l0 (h ▸ List.mem_cons_self l0 ls) h2
        · exact ih l (h ▸ List.mem_cons_of_mem l0 h1)

theorem splitLinesCh_of_no_newline {l : Line} (h : '\n' ∉ l) : splitLinesCh l = [l] := by
  induction l with
  | nil => rfl
  | cons c cs ih =>
    unfold splitLinesCh
    have hc : ¬(c = '\n') := fun he => h (he ▸ List.mem_cons_self c cs)
    rw [if_neg hc, ih (fun hm => h (List.mem_cons_of_mem c hm))]

theorem splitLinesCh_append_newline {l : Line} (h : '\n' ∉ l) (rest : List Char) :
    splitLinesCh (l ++ '\n' :: rest) = l :: splitLinesCh rest := by
  induction l with
  | nil => simp [splitLinesCh]
  | cons c cs ih =>
    have hc : ¬(c = '\n') := fun he => h (he ▸ List.mem_cons_self c cs)
    have ih' := ih (fun hm => h (List.mem_cons_of_mem c hm))
    simp only [List.cons_append]
    rw [splitLinesCh, if_neg hc, ih']

theorem splitLines_joinLines {L : List Line} (hne : L ≠ [])
    (h : ∀ l ∈ L, '\n' ∉ l) : splitLinesCh (joinLinesCh L) = L := by
  induction L with
  | nil => exact absurd rfl hne
  | cons l ls ih =>
    cases ls with
    | nil =>
      show splitLinesCh (joinLinesCh [l]) = [l]
      unfold joinLinesCh
      exact splitLinesCh_of_no_newline (h l (List.mem_cons_self l []))
    | cons l2 ls2 =>
      show splitLinesCh (joinLinesCh (l :: l2 :: ls2)) = l :: l2 :: ls2
      unfold joinLinesCh
      rw [splitLinesCh_append_newline (h l (List.mem_cons_self _ _))]
      exact congrArg _ (ih (by simp) (fun x hx => h x (List.mem_cons_of_mem l hx)))

theorem dropWhile_dropWhile (p : Char → Bool) (l : Line) :
    (l.dropWhile p).dropWhile p = l.dropWhile p := by
  induction l with
  | nil => rfl
  | cons c cs ih =>
    by_cases hc : p c
    · rw [List.dropWhile_cons_of_pos hc]
      exact ih
    · rw [List.dropWhile_cons_of_neg hc, List.dropWhile_cons_of_neg hc]

theorem trimRight_trimRight (l : Line) : trimRight (trimRight l) = trimRight l := by
  unfold trimRight
  rw [List.reverse_reverse, dropWhile_dropWhile]

theorem mem_trimRight_sub {l : Line} {c : Char} (h : c ∈ trimRight l) : c ∈ l := by
  unfold trimRight at h
  rw [List.mem_reverse] at h
  have := (List.dropWhile_sublist isWS).mem h
  rwa [List.mem_reverse] at this

theorem trimRight_not_blank {l : Line} (h : isBlank l = false) :
    isBlank (trimRight l) = false := by
  by_contra hb
  apply absurd h
  simp only [ne_eq, Bool.not_eq_false]
  have hb' : isBlank (trimRight l) = true := by
    cases he : isBlank (trimRight l)
    · exact absurd he hb
    · rfl
  unfold isBlank at *
  rw [List.all_eq_true] at hb' ⊢
  intro x hx
  have hsplit := List.takeWhile_append_dropWhile (p := isWS) (l := l.reverse)
  have hx' : x ∈ l.reverse := List.mem_reverse.2 hx
  rw [← hsplit] at hx'
  rcases List.mem_append.1 hx' with h1 | h1
  · exact List.mem_takeWhile_imp h1
  · exact hb' x (by unfold trimRight; rw [List.mem_reverse]; exact h1)

theorem trimRight_ne_nil {l : Line} (h : isBlank l = false) : trimRight l ≠ [] := by
  intro he
  unfold trimRight at he
  have : l.reverse.dropWhile isWS = [] := by
    have := congrArg List.reverse he
    rwa [List.reverse_reverse] at this
  rw [List.dropWhile_eq_nil_iff] at this
  apply absurd h
  simp only [Bool.not_eq_false]
  unfold isBlank
  rw [List.all_eq_true]
  intro x hx
  exact this x (List.mem_reverse.2 hx)

theorem no_newline_trimRight {l : Line} (h : '\n' ∉ l) : '\n' ∉ trimRight l :=
  fun hm => h (mem_trimRight_sub hm)

theorem isWS_of_isDigitC {c : Char} (h : isDigitC c = true) : isWS c = false := by
  unfold isDigitC at h
  simp only [Bool.and_eq_true, decide_eq_true_eq] at h
  unfold isWS
  simp only [Bool.or_eq_false_iff, decide_eq_false_iff_not]
  refine ⟨⟨?_, ?_⟩, ?_⟩ <;>
  · intro he
    subst he
    revert h
    decide

theorem head_digit_cases {l : Line} (hall : ∀ c ∈ l, isDigitC c = true) :
    ∀ c, l.head? = some c → isDigitC c = true := by
  intro c hc
  cases l with
  | nil => cases hc
  | cons x xs =>
    simp only [List.head?_cons, Option.some.injEq] at hc
    subst hc
    exact hall x (List.mem_cons_self x xs)

theorem dropWhile_isWS_of_head_digit {l : Line}
    (h : ∀ c, l.head? = some c → isDigitC c = true) : l.dropWhile isWS = l := by
  cases l with
  | nil => rfl
  | cons x xs =>
    have hx := h x rfl
    exact List.dropWhile_cons_of_neg (by rw [isWS_of_isDigitC hx]; simp)

theorem trimRight_of_last_digit {l : Line}
    (h : ∀ c, l.getLast? = some c → isDigitC c = true) : trimRight l = l := by
  unfold trimRight
  cases hrev : l.reverse with
  | nil =>
    have hl : l = [] := List.reverse_eq_nil_iff.1 hrev
    subst hl
    rfl
  | cons b xs =>
    have hb : l.getLast? = some b := by
      rw [← List.head?_reverse, hrev]
      rfl
    have := h b hb
    rw [List.dropWhile_cons_of_neg (by rw [isWS_of_isDigitC this]; simp)]
    rw [← hrev, List.reverse_reverse]

theorem padNum_head_digit (w n : Nat) :
    ∀ c, (padNum w n).head? = some c → isDigitC c = true :=
  head_digit_cases (padNum_all_digit w n)

theorem natToDigits_getLast_digit (n : Nat) :
    ∀ c, (natToDigits n).getLast? = some c → isDigitC c = true := by
  intro c hc
  exact natToDigits_all_digit n c (List.mem_of_getLast?_eq_some hc)

theorem padNum_getLast_digit (w n : Nat) :
    ∀ c, (padNum w n).getLast? = some c → isDigitC c = true := by
  intro c hc
  unfold padNum at hc
  rw [List.getLast?_append] at hc
  cases hl : (natToDigits n).getLast? with
  | none =>
    exact absurd hl (by
      have := natToDigits_ne_nil n
      cases hnl : natToDigits n with
      | nil => exact absurd hnl this
      | cons a as => simp [hnl, List.getLast?])
  | some d =>
    rw [hl] at hc
    simp only [Option.or_some, Option.some.injEq] at hc
    subst hc
    exact natToDigits_getLast_digit n d hl

theorem formatTime_head_digit (t : Nat) :
    ∀ c, (formatTime t).head? = some c → isDigitC c = true := by
  intro c hc
  have hshape : formatTime t = padNum 2 (t / 3600000) ++
      (':' :: (padNum 2 (t / 60000 % 60) ++
        ':' :: (padNum 2 (t / 1000 % 60) ++ ',' :: padNum 3 (t % 1000)))) := by
    unfold formatTime
    simp [List.append_assoc]
  rw [hshape, List.head?_append] at hc
  cases hh : (padNum 2 (t / 3600000)).head? with
  | none =>
    have := padNum_ne_nil 2 (t / 3600000)
    cases hp : padNum 2 (t / 3600000) with
    | nil => exact absurd hp this
    | cons a as => rw [hp] at hh; cases hh
  | some d =>
    rw [hh] at hc
    rw [Option.or_some] at hc
    simp only [Option.some.injEq] at hc
    subst hc
    exact padNum_head_digit _ _ d hh

theorem formatTime_getLast_digit (t : Nat) :
    ∀ c, (formatTime t).getLast? = some c → isDigitC c = true := by
  intro c hc
  have hshape : formatTime t =
      (padNum 2 (t / 3600000) ++ [':'] ++ padNum 2 (t / 60000 % 60) ++ [':'] ++
        padNum 2 (t / 1000 % 60) ++ [',']) ++ padNum 3 (t % 1000) := by
    unfold formatTime
    simp [List.append_assoc]
  rw [hshape, List.getLast?_append_of_ne_nil _ (padNum_ne_nil _ _)] at hc
  exact padNum_getLast_digit _ _ c hc

theorem trim_of_digit_ends {l : Line}
    (hh : ∀ c, l.head? = some c → isDigitC c = true)
    (hl : ∀ c, l.getLast? = some c → isDigitC c = true) : trim l = l := by
  unfold trim
  rw [dropWhile_isWS_of_head_digit hh]
  exact trimRight_of_last_digit hl

theorem trim_formatTsLine (s e : Nat) : trim (formatTsLine s e) = formatTsLine s e := by
  apply trim_of_digit_ends
  · intro c hc
    have hshape : formatTsLine s e = formatTime s ++
        (' ' :: '-' :: '-' :: '>' :: ' ' :: formatTime e) := rfl
    rw [hshape, List.head?_append] at hc
    cases hh : (formatTime s).head? with
    | none =>
      rw [hh] at hc
      simp only [Option.none_or, List.head?_cons, Option.some.injEq] at hc
      subst hc
      have := formatTime_head_digit s
      cases hf : formatTime s with
      | nil =>
        exfalso
        have h2 := congrArg digitsVal hf
        have h3 : parseTimeLead (formatTime s ++ []) = some (s, []) :=
          parseTimeLead_formatTime s [] (by intro x hx; cases hx)
        rw [hf] at h3
        simp [parseTimeLead, parseNumField, digitRun] at h3
      | cons a as => rw [hf] at hh; cases hh
    | some d =>
      rw [hh, Option.or_some] at hc
      simp only [Option.some.injEq] at hc
      subst hc
      exact formatTime_head_digit s d hh
  · intro c hc
    have hshape : formatTsLine s e = (formatTime s ++
        [' ', '-', '-', '>', ' ']) ++ formatTime e := by
      unfold formatTsLine
      simp [List.append_assoc]
    rw [hshape] at hc
    have hne : formatTime e ≠ [] := by
      intro hf
      have h3 : parseTimeLead (formatTime e ++ []) = some (e, []) :=
        parseTimeLead_formatTime e [] (by intro x hx; cases hx)
      rw [hf] at h3
      simp [parseTimeLead, parseNumField, digitRun] at h3
    rw [List.getLast?_append_of_ne_nil _ hne] at hc
    exact formatTime_getLast_digit e c hc

theorem formatTime_ne_nil (t : Nat) : formatTime t ≠ [] := by
  intro hf
  have h3 : parseTimeLead (formatTime t ++ []) = some (t, []) :=
    parseTimeLead_formatTime t [] (by intro x hx; cases hx)
  rw [hf] at h3
  simp [parseTimeLead, parseNumField, digitRun] at h3

theorem trim_natToDigits (n : Nat) : trim (natToDigits n) = natToDigits n :=
  trim_of_digit_ends (head_digit_cases (natToDigits_all_digit n))
    (natToDigits_getLast_digit n)

theorem isIndexLine_natToDigits (n : Nat) : isIndexLine (natToDigits n) = true := by
  unfold isIndexLine
  rw [trim_natToDigits]
  simp only [Bool.and_eq_true, Bool.not_eq_true', List.all_eq_true]
  constructor
  · rw [List.isEmpty_eq_false]
    exact natToDigits_ne_nil n
  · exact natToDigits_all_digit n

theorem parseTsLine_format (s e : Nat) : parseTsLine (formatTsLine s e) = some (s, e) := by
  unfold parseTsLine
  rw [trim_formatTsLine]
  have hshape : formatTsLine s e = formatTime s ++
      (' ' :: '-' :: '-' :: '>' :: ' ' :: formatTime e) := rfl
  rw [hshape]
  rw [parseTimeLead_formatTime s _ (head?_cons_not_digit (by decide))]
  simp only [Option.some_bind]
  show (parseTimeAll (formatTime e)).map _ = _
  rw [parseTimeAll_formatTime]
  rfl

theorem parseBlock_blockContent (pos idx : Nat) (c : Cue) (hl : c.lines ≠ [])
    (hfix : ∀ l ∈ c.lines, trimRight l = l) :
    parseBlock pos (blockContent idx c) = Except.ok c := by
  unfold parseBlock stripIndex parseBlockBody blockContent
  have hne : c.lines.isEmpty = false := List.isEmpty_eq_false.2 hl
  simp only [isIndexLine_natToDigits, if_true, parseTsLine_format, hne,
    Bool.false_eq_true, if_false]
  have hmap : c.lines.map trimRight = c.lines := by
    have := List.map_congr_left (f := trimRight) (g := id) (l := c.lines)
      (fun x hx => by rw [hfix x hx]; rfl)
    rw [this, List.map_id]
  rw [hmap]

theorem head?_some_of_ne_nil {l : Line} (h : l ≠ []) : ∃ d, l.head? = some d := by
  cases l with
  | nil => exact absurd rfl h
  | cons x xs => exact ⟨x, rfl⟩

theorem not_blank_of_head_digit {l : Line}
    (h : ∀ c, l.head? = some c → isDigitC c = true) (hne : l ≠ []) :
    isBlank l = false := by
  cases l with
  | nil => exact absurd rfl hne
  | cons c cs =>
    have hc := h c rfl
    simp [isBlank, List.all_cons, isWS_of_isDigitC hc]

theorem formatTsLine_head_digit (s e : Nat) :
    ∀ c, (formatTsLine s e).head? = some c → isDigitC c = true := by
  intro c hc
  have hshape : formatTsLine s e = formatTime s ++
      (' ' :: '-' :: '-' :: '>' :: ' ' :: formatTime e) := rfl
  rw [hshape, List.head?_append] at hc
  obtain ⟨d, hd⟩ := head?_some_of_ne_nil (formatTime_ne_nil s)
  rw [hd, Option.or_some] at hc
  simp only [Option.some.injEq] at hc
  subst hc
  exact formatTime_head_digit s d hd

theorem formatTsLine_ne_nil (s e : Nat) : formatTsLine s e ≠ [] := by
  unfold formatTsLine
  intro h
  rcases List.append_eq_nil.1 h with ⟨h1, -⟩
  exact formatTime_ne_nil s h1

theorem isBlank_natToDigits (n : Nat) : isBlank (natToDigits n) = false :=
  not_blank_of_head_digit (head_digit_cases (natToDigits_all_digit n))
    (natToDigits_ne_nil n)

theorem isBlank_formatTsLine (s e : Nat) : isBlank (formatTsLine s e) = false :=
  not_blank_of_head_digit (formatTsLine_head_digit s e) (formatTsLine_ne_nil s e)

theorem groupBlocksAux_all_nonblank {b : List Line}
    (hb : ∀ l ∈ b, isBlank l = false) (cur : List Line) (ls : List Line) :
    groupBlocksAux cur (b ++ ls) = groupBlocksAux (b.reverse ++ cur) ls := by
  induction b generalizing cur with
  | nil => simp
  | cons l b' ih =>
    have hl : isBlank l = false := hb l (List.mem_cons_self l b')
    simp only [List.cons_append]
    rw [groupBlocksAux, hl]
    simp only [Bool.false_eq_true, if_false]
    rw [ih (fun x hx => hb x (List.mem_cons_of_mem l hx)) (l :: cur)]
    congr 1
    simp [List.append_assoc]

theorem blockContent_nonblank {c : Cue} (idx : Nat)
    (hc : ∀ l ∈ c.lines, isBlank l = false) :
    ∀ l ∈ blockContent idx c, isBlank l = false := by
  intro l hl
  unfold blockContent at hl
  rcases List.mem_cons.1 hl with h | h
  · rw [h]
    exact isBlank_natToDigits idx
  · rcases List.mem_cons.1 h with h2 | h2
    · rw [h2]
      exact isBlank_formatTsLine c.start c.stop
    · exact hc l h2

theorem parse_format_blocks (cs : List Cue) (hwf : WFlines cs) :
    ∀ i pos, parseBlocks pos (groupBlocksAux [] (formatBlocksFrom i cs)) =
      Except.ok cs := by
  induction cs with
  | nil =>
    intro i pos
    rfl
  | cons c cs' ih =>
    intro i pos
    obtain ⟨hlne, hlprops⟩ := hwf c (List.mem_cons_self c cs')
    have hwf' : WFlines cs' := fun x hx => hwf x (List.mem_cons_of_mem c hx)
    have hnb : ∀ l ∈ blockContent i c, isBlank l = false :=
      blockContent_nonblank i (fun l hl => (hlprops l hl).2.1)
    show parseBlocks pos
      (groupBlocksAux [] (blockContent i c ++ [] :: formatBlocksFrom (i + 1) cs')) =
      Except.ok (c :: cs')
    rw [groupBlocksAux_all_nonblank hnb]
    rw [groupBlocksAux]
    have hblank : isBlank ([] : Line) = true := rfl
    rw [hblank]
    simp only [if_true, List.append_nil]
    have hcurne : ((blockContent i c).reverse).isEmpty = false := by
      rw [List.isEmpty_eq_false]
      simp [blockContent]
    rw [hcurne]
    simp only [Bool.false_eq_true, if_false, List.reverse_reverse]
    have hpb : parseBlock pos (blockContent i c) = Except.ok c :=
      parseBlock_blockContent pos i c hlne (fun l hl => (hlprops l hl).2.2)
    cases hcs' : cs' with
    | nil =>
      show parseBlocks pos [blockContent i c] = Except.ok [c]
      rw [parseBlocks, hpb]
    | cons c2 cs2 =>
      have hne2 : groupBlocksAux [] (formatBlocksFrom (i + 1) cs') ≠ [] := by
        rw [hcs']
        show groupBlocksAux []
          (blockContent (i + 1) c2 ++ [] :: formatBlocksFrom (i + 2) cs2) ≠ []
        rw [groupBlocksAux_all_nonblank (blockContent_nonblank (i + 1)
          (fun l hl => ((hwf' c2 (hcs' ▸ List.mem_cons_self c2 cs2)) |>.2 l hl).2.1))]
        rw [groupBlocksAux, hblank]
        simp only [if_true, List.append_nil]
        have : ((blockContent (i + 1) c2).reverse).isEmpty = false := by
          rw [List.isEmpty_eq_false]
          simp [blockContent]
        rw [this]
        simp
      rw [← hcs']
      cases hG : groupBlocksAux [] (formatBlocksFrom (i + 1) cs') with
      | nil => exact absurd hG hne2
      | cons g gs =>
        show parseBlocks pos (blockContent i c :: g :: gs) = Except.ok (c :: cs')
        rw [parseBlocks, hpb]
        · rw [← hG, ih hwf' (i + 1) (pos + 1)]
          rfl
        · simp

theorem formatTime_chars {t : Nat} {c : Char} (h : c ∈ formatTime t) :
    isDigitC c = true ∨ c = ':' ∨ c = ',' := by
  have hshape : formatTime t = padNum 2 (t / 3600000) ++
      (':' :: (padNum 2 (t / 60000 % 60) ++
        ':' :: (padNum 2 (t / 1000 % 60) ++ ',' :: padNum 3 (t % 1000)))) := by
    unfold formatTime
    simp [List.append_assoc]
  rw [hshape] at h
  simp only [List.mem_append, List.mem_cons] at h
  rcases h with h | h | h | h | h | h | h
  · exact Or.inl (padNum_all_digit _ _ c h)
  · exact Or.inr (Or.inl h)
  · exact Or.inl (padNum_all_digit _ _ c h)
  · exact Or.inr (Or.inl h)
  · exact Or.inl (padNum_all_digit _ _ c h)
  · exact Or.inr (Or.inr h)
  · exact Or.inl (padNum_all_digit _ _ c h)

theorem no_newline_formatTime (t : Nat) : '\n' ∉ formatTime t := by
  intro h
  rcases formatTime_chars h with h1 | h1 | h1
  · exact absurd h1 (by decide)
  · exact absurd h1 (by decide)
  · exact absurd h1 (by decide)

theorem no_newline_formatTsLine (s e : Nat) : '\n' ∉ formatTsLine s e := by
  intro h
  unfold formatTsLine at h
  rcases List.mem_append.1 h with h1 | h1
  · exact no_newline_formatTime s h1
  · simp only [List.mem_cons] at h1
    rcases h1 with h2 | h2 | h2 | h2 | h2 | h2
    · exact absurd h2 (by decide)
    · exact absurd h2 (by decide)
    · exact absurd h2 (by decide)
    · exact absurd h2 (by decide)
    · exact absurd h2 (by decide)
    · exact no_newline_formatTime e h2

theorem no_newline_natToDigits (n : Nat) : '\n' ∉ natToDigits n := by
  intro h
  have := natToDigits_all_digit n _ h
  exact absurd this (by decide)

theorem formatBlocksFrom_no_newline (cs : List Cue)
    (hwf : ∀ c ∈ cs, ∀ l ∈ c.lines, '\n' ∉ l) :
    ∀ i, ∀ l ∈ formatBlocksFrom i cs, '\n' ∉ l := by
  induction cs with
  | nil =>
    intro i l hl
    cases hl
  | cons c cs' ih =>
    intro i l hl
    show '\n' ∉ l
    rw [formatBlocksFrom] at hl
    rcases List.mem_append.1 hl with h1 | h1
    · unfold blockContent at h1
      rcases List.mem_cons.1 h1 with h2 | h2
      · rw [h2]
        exact no_newline_natToDigits i
      · rcases List.mem_cons.1 h2 with h3 | h3
        · rw [h3]
          exact no_newline_formatTsLine c.start c.stop
        · exact hwf c (List.mem_cons_self c cs') l h3
    · rcases List.mem_cons.1 h1 with h2 | h2
      · rw [h2]
        simp
      · exact ih (fun x hx => hwf x (List.mem_cons_of_mem c hx)) (i + 1) l h2

theorem parseBlocks_mem :
    ∀ {blocks : List (List Line)} {pos : Nat} {cs : List Cue},
      parseBlocks pos blocks = Except.ok cs →
      ∀ c ∈ cs, ∃ p b, b ∈ blocks ∧ parseBlock p b = Except.ok c := by
  intro blocks
  induction blocks with
  | nil =>
    intro pos cs h c hc
    rw [parseBlocks] at h
    cases h
    cases hc
  | cons b bs ih =>
    intro pos cs h c hc
    cases bs with
    | nil =>
      rw [parseBlocks] at h
      cases hpb : parseBlock pos b with
      | ok c0 =>
        simp only [hpb] at h
        cases h
        rcases List.mem_singleton.1 hc with h2
        subst h2
        exact ⟨pos, b, List.mem_cons_self b [], hpb⟩
      | error e =>
        simp only [hpb] at h
        cases h
        cases hc
    | cons b2 bs2 =>
      rw [parseBlocks] at h
      · cases hpb : parseBlock pos b with
        | ok c0 =>
          simp only [hpb] at h
          cases hrest : parseBlocks (pos + 1) (b2 :: bs2) with
          | ok cs0 =>
            rw [hrest] at h
            simp only [Except.map] at h
            have hcs : c0 :: cs0 = cs := by
              cases h
              rfl
            rw [← hcs] at hc
            rcases List.mem_cons.1 hc with h2 | h2
            · subst h2
              exact ⟨pos, b, List.mem_cons_self b _, hpb⟩
            · obtain ⟨p, blk, hmem, hblk⟩ := ih hrest c h2
              exact ⟨p, blk, List.mem_cons_of_mem b hmem, hblk⟩
          | error e =>
            rw [hrest] at h
            simp only [Except.map] at h
            cases h
        | error e =>
          simp only [hpb] at h
          cases h
      · simp

theorem stripIndex_sub {b : List Line} : ∀ l ∈ stripIndex b, l ∈ b := by
  intro l hl
  cases b with
  | nil => exact hl
  | cons x xs =>
    rw [stripIndex] at hl
    split at hl
    · exact List.mem_cons_of_mem x hl
    · exact hl

theorem parseBlockBody_ok_shape {pos : Nat} {rest : List Line} {c : Cue}
    (h : parseBlockBody pos rest = Except.ok c)
    (hb : ∀ l ∈ rest, isBlank l = false ∧ '\n' ∉ l) :
    c.lines ≠ [] ∧ ∀ l ∈ c.lines, '\n' ∉ l ∧ isBlank l = false ∧ trimRight l = l := by
  cases rest with
  | nil =>
    rw [parseBlockBody] at h
    cases h
  | cons tsl txt =>
    cases hts : parseTsLine tsl with
    | none =>
      simp only [parseBlockBody, hts] at h
      cases h
    | some p =>
      obtain ⟨sNat, eNat⟩ := p
      simp only [parseBlockBody, hts] at h
      cases hemp : txt.isEmpty with
      | true =>
        rw [hemp] at h
        simp at h
      | false =>
        rw [hemp] at h
        simp only [Bool.false_eq_true, if_false] at h
        have hc : c = ⟨sNat, eNat, txt.map trimRight⟩ := by
          cases h
          rfl
        subst hc
        have htxtne : txt ≠ [] := List.isEmpty_eq_false.1 hemp
        constructor
        · simp only [ne_eq, List.map_eq_nil_iff]
          exact htxtne
        · intro l hl
          obtain ⟨l0, hl0, hmap⟩ := List.mem_map.1 hl
          have hprops := hb l0 (List.mem_cons_of_mem tsl hl0)
          subst hmap
          exact ⟨no_newline_trimRight hprops.2, trimRight_not_blank hprops.1,
            trimRight_trimRight l0⟩

theorem groupBlocksAux_mem (P : Line → Prop) :
    ∀ (ls cur : List Line), (∀ l ∈ cur, isBlank l = false ∧ P l) →
      (∀ l ∈ ls, P l) →
      ∀ b ∈ groupBlocksAux cur ls, ∀ l ∈ b, isBlank l = false ∧ P l := by
  intro ls
  induction ls with
  | nil =>
    intro cur hcur hls b hb l hl
    rw [groupBlocksAux] at hb
    split at hb
    · cases hb
    · rcases List.mem_singleton.1 hb with h2
      subst h2
      exact hcur l (List.mem_reverse.1 hl)
  | cons l0 ls' ih =>
    intro cur hcur hls b hb l hl
    rw [groupBlocksAux] at hb
    by_cases hbl : isBlank l0 = true
    · rw [hbl] at hb
      simp only [if_true] at hb
      split at hb
      · exact ih [] (by simp) (fun x hx => hls x (List.mem_cons_of_mem l0 hx)) b hb l hl
      · rcases List.mem_cons.1 hb with h2 | h2
        · subst h2
          exact hcur l (List.mem_reverse.1 hl)
        · exact ih [] (by simp) (fun x hx => hls x (List.mem_cons_of_mem l0 hx)) b h2 l hl
    · have hbl' : isBlank l0 = false := by
        cases hq : isBlank l0
        · rfl
        · exact absurd hq hbl
      rw [hbl'] at hb
      simp only [Bool.false_eq_true, if_false] at hb
      refine ih (l0 :: cur) ?_ (fun x hx => hls x (List.mem_cons_of_mem l0 hx)) b hb l hl
      intro x hx
      rcases List.mem_cons.1 hx with h2 | h2
      · rw [h2]
        exact ⟨hbl', hls l0 (List.mem_cons_self l0 ls')⟩
      · exact hcur x h2

theorem parseSubs_wf {buf : List Char} {f : SubtitleFile}
    (h : parseSubs buf = Except.ok f) : WFfile f := by
  unfold parseSubs at h
  cases hpb : parseBlocks 1 (groupBlocks (splitLinesCh buf)) with
  | error e =>
    rw [hpb] at h
    simp only [Except.map] at h
    cases h
  | ok cs =>
    rw [hpb] at h
    simp only [Except.map] at h
    have hf : f = ⟨cs.insertionSort cueLEP⟩ := by
      cases h
      rfl
    subst hf
    constructor
    · exact List.sorted_insertionSort cueLEP cs
    · intro c hc
      have hc' : c ∈ cs := (List.mem_insertionSort cueLEP).1 hc
      obtain ⟨p, b, hbmem, hblk⟩ := parseBlocks_mem hpb c hc'
      have hbprops : ∀ l ∈ b, isBlank l = false ∧ '\n' ∉ l := by
        intro l hl
        exact groupBlocksAux_mem (fun x => '\n' ∉ x) (splitLinesCh buf) []
          (by simp) (splitLinesCh_no_newline buf) b hbmem l hl
      exact parseBlockBody_ok_shape hblk
        (fun l hl => hbprops l (stripIndex_sub l hl))

theorem parseSubs_formatFile {f : SubtitleFile} (hwf : WFfile f) :
    parseSubs (formatFile f) = Except.ok f := by
  obtain ⟨hsort, hlines⟩ := hwf
  unfold parseSubs formatFile
  by_cases hnil : f.subs = []
  · have hfeq : f = ⟨[]⟩ := by
      cases f
      simp only at hnil
      rw [hnil]
    rw [hfeq]
    rw [show formatBlocksFrom 1 (SubtitleFile.mk []).subs = [] from rfl]
    rw [show splitLinesCh (joinLinesCh ([] : List Line)) = [[]] from rfl]
    rw [show groupBlocks [[]] = [] from rfl]
    rw [show parseBlocks 1 ([] : List (List Line)) = Except.ok [] from rfl]
    simp only [Except.map]
    rfl
  · have hne : formatBlocksFrom 1 f.subs ≠ [] := by
      cases hsubs : f.subs with
      | nil => exact absurd hsubs hnil
      | cons c0 cs0 =>
        rw [formatBlocksFrom]
        simp [blockContent]
    have hnl : ∀ l ∈ formatBlocksFrom 1 f.subs, '\n' ∉ l :=
      formatBlocksFrom_no_newline f.subs
        (fun c hc l hl => ((hlines c hc).2 l hl).1) 1
    rw [splitLines_joinLines hne hnl]
    unfold groupBlocks
    rw [parse_format_blocks f.subs hlines 1 1]
    simp only [Except.map]
    rw [List.Sorted.insertionSort_eq hsort]

theorem dedupSorted_head : ∀ (rest : List Nat) (b : Nat),
    (dedupSorted (b :: rest)).head? = some b := by
  intro rest
  induction rest with
  | nil => intro b; rfl
  | cons r rs ih =>
    intro b
    rw [dedupSorted]
    split
    · rename_i heq
      rw [heq]
      exact ih r
    · rfl

theorem dedupSorted_chain : ∀ {l : List Nat}, List.Chain' (· ≤ ·) l →
    List.Chain' (· < ·) (dedupSorted l) := by
  intro l
  induction l with
  | nil => intro h; exact List.chain'_nil
  | cons a rest ih =>
    cases rest with
    | nil => intro h; exact List.chain'_singleton a
    | cons b rest2 =>
      intro h
      have hab : a ≤ b := (List.chain'_cons.1 h).1
      have htail : List.Chain' (· ≤ ·) (b :: rest2) := (List.chain'_cons.1 h).2
      rw [dedupSorted]
      split
      · exact ih htail
      · rename_i hne
        rw [List.chain'_cons']
        refine ⟨?_, ih htail⟩
        intro y hy
        rw [dedupSorted_head rest2 b] at hy
        simp only [Option.mem_def, Option.some.injEq] at hy
        subst hy
        omega

theorem sweep_good (fcs ncs : List Cue) :
    ∀ pts : List Nat, List.Chain' (· < ·) pts →
      List.Chain' (fun c d : BiCue => c.stop ≤ d.start) (sweep fcs ncs pts) ∧
      ∀ x ∈ sweep fcs ncs pts, x.start < x.stop ∧
        ∀ a, pts.head? = some a → a ≤ x.start := by
  intro pts
  induction pts with
  | nil =>
    intro h
    exact ⟨List.chain'_nil, by intro x hx; cases hx⟩
  | cons a rest ih =>
    cases rest with
    | nil =>
      intro h
      refine ⟨List.chain'_nil, ?_⟩
      intro x hx
      cases hx
    | cons b rest2 =>
      intro h
      have hab : a < b := (List.chain'_cons.1 h).1
      have htail := ih (List.chain'_cons.1 h).2
      rw [sweep]
      by_cases hemp : ((activeLines fcs a).isEmpty && (activeLines ncs a).isEmpty) = true
      · rw [hemp]
        simp only [if_true]
        refine ⟨htail.1, ?_⟩
        intro x hx
        have hm := htail.2 x hx
        refine ⟨hm.1, ?_⟩
        intro a0 ha0
        simp only [List.head?_cons, Option.some.injEq] at ha0
        subst ha0
        have := hm.2 b rfl
        omega
      · have hemp' : ((activeLines fcs a).isEmpty && (activeLines ncs a).isEmpty) = false := by
          cases hq : ((activeLines fcs a).isEmpty && (activeLines ncs a).isEmpty)
          · rfl
          · exact absurd hq hemp
        rw [hemp']
        simp only [Bool.false_eq_true, if_false]
        constructor
        · rw [List.chain'_cons']
          refine ⟨?_, htail.1⟩
          intro y hy
          have hym : y ∈ sweep fcs ncs (b :: rest2) := List.mem_of_mem_head? hy
          exact (htail.2 y hym).2 b rfl
        · intro x hx
          rcases List.mem_cons.1 hx with h1 | h1
          · subst h1
            refine ⟨hab, ?_⟩
            intro a0 ha0
            simp only [List.head?_cons, Option.some.injEq] at ha0
            subst ha0
            exact Nat.le_refl a
          · have hm := htail.2 x h1
            refine ⟨hm.1, ?_⟩
            intro a0 ha0
            simp only [List.head?_cons, Option.some.injEq] at ha0
            subst ha0
            have := hm.2 b rfl
            omega

theorem mergeRunGo_head_start : ∀ (l : List BiCue) (acc : BiCue),
    ∃ y, (mergeRunGo acc l).head? = some y ∧ y.start = acc.start := by
  intro l
  induction l with
  | nil =>
    intro acc
    exact ⟨acc, rfl, rfl⟩
  | cons d rest ih =>
    intro acc
    rw [mergeRunGo]
    split
    · obtain ⟨y, hy, hs⟩ := ih ⟨acc.start, d.stop, acc.foreign, acc.native⟩
      exact ⟨y, hy, hs⟩
    · exact ⟨acc, rfl, rfl⟩

theorem mergeRunGo_good : ∀ (l : List BiCue) (acc : BiCue),
    List.Chain' (fun c d : BiCue => c.stop ≤ d.start) (acc :: l) →
    (∀ x ∈ acc :: l, x.start < x.stop) →
    List.Chain' (fun c d : BiCue => c.stop ≤ d.start) (mergeRunGo acc l) ∧
    ∀ x ∈ mergeRunGo acc l, x.start < x.stop := by
  intro l
  induction l with
  | nil =>
    intro acc _ hmem
    refine ⟨List.chain'_singleton acc, ?_⟩
    intro x hx
    rcases List.mem_singleton.1 hx with h
    subst h
    exact hmem x (List.mem_cons_self _ _)
  | cons d rest ih =>
    intro acc hch hmem
    have hcd : acc.stop ≤ d.start := (List.chain'_cons.1 hch).1
    have htail : List.Chain' (fun c d : BiCue => c.stop ≤ d.start) (d :: rest) :=
      (List.chain'_cons.1 hch).2
    have hacc : acc.start < acc.stop := hmem acc (List.mem_cons_self _ _)
    have hd : d.start < d.stop :=
      hmem d (List.mem_cons_of_mem acc (List.mem_cons_self _ _))
    rw [mergeRunGo]
    split
    · refine ih ⟨acc.start, d.stop, acc.foreign, acc.native⟩ ?_ ?_
      · rw [List.chain'_cons']
        refine ⟨?_, (List.chain'_cons'.1 htail).2⟩
        intro y hy
        have := (List.chain'_cons'.1 htail).1 y hy
        simpa using this
      · intro x hx
        rcases List.mem_cons.1 hx with h1 | h1
        · rw [h1]
          show acc.start < d.stop
          omega
        · exact hmem x (List.mem_cons_of_mem acc (List.mem_cons_of_mem d h1))
    · have hrec := ih d htail
        (fun x hx => hmem x (List.mem_cons_of_mem acc hx))
      constructor
      · rw [List.chain'_cons']
        refine ⟨?_, hrec.1⟩
        intro y hy
        obtain ⟨y0, hy0, hs0⟩ := mergeRunGo_head_start rest d
        rw [hy0] at hy
        simp only [Option.mem_def, Option.some.injEq] at hy
        subst hy
        rw [hs0]
        exact hcd
      · intro x hx
        rcases List.mem_cons.1 hx with h1 | h1
        · rw [h1]
          exact hacc
        · exact hrec.2 x h1

theorem mergeRun_good : ∀ (l : List BiCue),
    List.Chain' (fun c d : BiCue => c.stop ≤ d.start) l →
    (∀ x ∈ l, x.start < x.stop) →
    List.Chain' (fun c d : BiCue => c.stop ≤ d.start) (mergeRun l) ∧
    ∀ x ∈ mergeRun l, x.start < x.stop := by
  intro l hch hmem
  cases l with
  | nil => exact ⟨List.chain'_nil, by intro x hx; cases hx⟩
  | cons c rest =>
    rw [mergeRun]
    exact mergeRunGo_good rest c hch hmem

theorem chain'_adjacent_strengthen : ∀ (l : List BiCue),
    List.Chain' (fun c d : BiCue => c.stop ≤ d.start) l →
    (∀ x ∈ l, x.start < x.stop) →
    List.Chain' (fun c d : BiCue => c.start < d.start ∧ c.stop ≤ d.start) l := by
  intro l
  induction l with
  | nil =>
    intro _ _
    exact List.chain'_nil
  | cons x xs ih =>
    intro hch hmem
    rw [List.chain'_cons'] at hch
    rw [List.chain'_cons']
    refine ⟨?_, ih hch.2 (fun y hy => hmem y (List.mem_cons_of_mem x hy))⟩
    intro y hy
    have h1 := hch.1 y hy
    have h2 := hmem x (List.mem_cons_self x xs)
    exact ⟨by omega, h1⟩

theorem combineBilingual_good (f n : SubtitleFile) :
    List.Chain' (fun c d : BiCue => c.start < d.start ∧ c.stop ≤ d.start)
      (combineBilingual f n) ∧
    ∀ x ∈ combineBilingual f n, x.start < x.stop := by
  unfold combineBilingual
  have hsorted : List.Chain' (· ≤ ·)
      ((cuePoints f.subs ++ cuePoints n.subs).insertionSort (· ≤ ·)) :=
    List.Pairwise.chain'
      (List.sorted_insertionSort (· ≤ ·) (cuePoints f.subs ++ cuePoints n.subs))
  have hchain := dedupSorted_chain hsorted
  have hs := sweep_good f.subs n.subs _ hchain
  have hm := mergeRun_good _ hs.1 (fun x hx => (hs.2 x hx).1)
  exact ⟨chain'_adjacent_strengthen _ hm.1 hm.2, hm.2⟩

theorem parseBlockBody_error {pos : Nat} {rest : List Line} {e : Err}
    (h : parseBlockBody pos rest = Except.error e) : e = Err.malformedCue pos := by
  cases rest with
  | nil =>
    rw [parseBlockBody] at h
    cases h
    rfl
  | cons tsl txt =>
    cases hts : parseTsLine tsl with
    | none =>
      simp only [parseBlockBody, hts] at h
      cases h
      rfl
    | some p =>
      obtain ⟨sNat, eNat⟩ := p
      simp only [parseBlockBody, hts] at h
      cases hemp : txt.isEmpty with
      | true =>
        rw [hemp] at h
        simp only [if_true] at h
        cases h
        rfl
      | false =>
        rw [hemp] at h
        simp only [Bool.false_eq_true, if_false] at h
        cases h

theorem parseBlocks_error :
    ∀ {blocks : List (List Line)} {pos : Nat} {e : Err},
      parseBlocks pos blocks = Except.error e → ∃ p, e = Err.malformedCue p := by
  intro blocks
  induction blocks with
  | nil =>
    intro pos e h
    rw [parseBlocks] at h
    cases h
  | cons b bs ih =>
    intro pos e h
    cases bs with
    | nil =>
      rw [parseBlocks] at h
      cases hpb : parseBlock pos b with
      | ok c =>
        simp only [hpb] at h
        cases h
      | error e2 =>
        simp only [hpb] at h
        cases h
    | cons b2 bs2 =>
      rw [parseBlocks] at h
      · cases hpb : parseBlock pos b with
        | ok c =>
          simp only [hpb] at h
          cases hrest : parseBlocks (pos + 1) (b2 :: bs2) with
          | ok cs =>
            rw [hrest] at h
            simp only [Except.map] at h
            cases h
          | error e2 =>
            rw [hrest] at h
            simp only [Except.map] at h
            cases h
            exact ih hrest
        | error e2 =>
          simp only [hpb] at h
          cases h
          exact ⟨pos, parseBlockBody_error hpb⟩
      · simp

theorem parseSubs_error {buf : List Char} {e : Err}
    (h : parseSubs buf = Except.error e) : ∃ p, e = Err.malformedCue p := by
  unfold parseSubs at h
  cases hpb : parseBlocks 1 (groupBlocks (splitLinesCh buf)) with
  | ok cs =>
    rw [hpb] at h
    simp only [Except.map] at h
    cases h
  | error e2 =>
    rw [hpb] at h
    simp only [Except.map] at h
    cases h
    exact parseBlocks_error hpb

theorem cleaned_from_path_error {fs : Fs} {p : FsPath} {e : Err}
    (h : cleaned_from_path fs p = Except.error e) :
    fs p = Except.error e ∨ ∃ pos, e = Err.malformedCue pos := by
  unfold cleaned_from_path at h
  cases hfs : fs p with
  | error e2 =>
    rw [hfs] at h
    simp only [Except.bind] at h
    cases h
    exact Or.inl rfl
  | ok buf =>
    rw [hfs] at h
    simp only [Except.bind] at h
    cases hps : parseSubs buf with
    | ok f =>
      rw [hps] at h
      simp only [Except.map] at h
      cases h
    | error e2 =>
      rw [hps] at h
      simp only [Except.map] at h
      cases h
      exact Or.inr (parseSubs_error hps)

/-- C1: `cmd_combine` loads each input via
`SubtitleFile::cleaned_from_path` — reading, parsing and cleaning it —
and only then applies `combine_files` to the two cleaned files, so the
alignment engine always runs on cleaned Subtitle Files. -/
theorem claim_C1 (fs : Fs) (p1 p2 : FsPath) (f1 f2 : SubtitleFile)
    (h1 : cleaned_from_path fs p1 = Except.ok f1)
    (h2 : cleaned_from_path fs p2 = Except.ok f2) :
    cmd_combine fs p1 p2 = Except.ok (formatFile (combine_files f1 f2)) ∧
    (∀ buf, fs p1 = Except.ok buf →
      ∃ parsed, parseSubs buf = Except.ok parsed ∧
        f1 = clean_subtitle_file parsed) ∧
    (∀ buf, fs p2 = Except.ok buf →
      ∃ parsed, parseSubs buf = Except.ok parsed ∧
        f2 = clean_subtitle_file parsed) := by
  refine ⟨?_, ?_, ?_⟩
  · unfold cmd_combine
    rw [h1, h2]
    rfl
  · intro buf hbuf
    unfold cleaned_from_path at h1
    rw [hbuf] at h1
    simp only [Except.bind] at h1
    cases hps : parseSubs buf with
    | ok parsed =>
      rw [hps] at h1
      simp only [Except.map] at h1
      refine ⟨parsed, rfl, ?_⟩
      cases h1
      rfl
    | error e =>
      rw [hps] at h1
      simp only [Except.map] at h1
      cases h1
  · intro buf hbuf
    unfold cleaned_from_path at h2
    rw [hbuf] at h2
    simp only [Except.bind] at h2
    cases hps : parseSubs buf with
    | ok parsed =>
      rw [hps] at h2
      simp only [Except.map] at h2
      refine ⟨parsed, rfl, ?_⟩
      cases h2
      rfl
    | error e =>
      rw [hps] at h2
      simp only [Except.map] at h2
      cases h2

theorem claim_C1_witness :
    cmd_combine fsAB "foreign.srt" "native.srt" =
      Except.ok (formatFile (combine_files fileA fileB)) :=
  (claim_C1 fsAB "foreign.srt" "native.srt" fileA fileB rfl rfl).1

/-- C2: on foreign cue [1.000s,3.000s) "Bonjour" and native cue
[1.500s,4.000s) "Hello", the alignment engine produces exactly the
three bilingual cues [1.000,1.500) Bonjour with empty native,
[1.500,3.000) Bonjour with Hello, and [3.000,4.000) empty foreign
with Hello. -/
theorem claim_C2 :
    combineBilingual ⟨[⟨1000, 3000, ["Bonjour".data]⟩]⟩
        ⟨[⟨1500, 4000, ["Hello".data]⟩]⟩ =
      [⟨1000, 1500, ["Bonjour".data], []⟩,
       ⟨1500, 3000, ["Bonjour".data], ["Hello".data]⟩,
       ⟨3000, 4000, [], ["Hello".data]⟩] := by
  decide

/-- C3: every Subtitle File the Cue Parser produces from a well-formed
buffer serializes and re-parses to itself: parse(format(f)) = f. -/
theorem claim_C3 (buf : List Char) (f : SubtitleFile)
    (h : parseSubs buf = Except.ok f) :
    parseSubs (formatFile f) = Except.ok f :=
  parseSubs_formatFile (parseSubs_wf h)

theorem claim_C3_witness :
    parseSubs (formatFile ⟨[⟨1000, 3000, ["Bonjour".data]⟩,
        ⟨5000, 6000, ["Salut".data]⟩]⟩) =
      Except.ok ⟨[⟨1000, 3000, ["Bonjour".data]⟩, ⟨5000, 6000, ["Salut".data]⟩]⟩ :=
  claim_C3 bufC _ rfl

/-- C4: the Cue Parser's output is non-decreasing by start time, and
the Alignment Engine's output is strictly increasing by start,
non-overlapping, with every interval non-degenerate. -/
theorem claim_C4 :
    (∀ (buf : List Char) (f : SubtitleFile), parseSubs buf = Except.ok f →
      List.Chain' (fun c d : Cue => c.start ≤ d.start) f.subs) ∧
    (∀ f n : SubtitleFile,
      List.Chain' (fun c d : BiCue => c.start < d.start ∧ c.stop ≤ d.start)
        (combineBilingual f n) ∧
      ∀ x ∈ combineBilingual f n, x.start < x.stop) := by
  constructor
  · intro buf f h
    exact List.Pairwise.chain' (parseSubs_wf h).1
  · intro f n
    exact combineBilingual_good f n

theorem claim_C4_witness :
    List.Chain' (fun c d : Cue => c.start ≤ d.start)
      (SubtitleFile.mk [⟨1000, 3000, ["Bonjour".data]⟩,
        ⟨5000, 6000, ["Salut".data]⟩]).subs :=
  claim_C4.1 bufC _ rfl

/-- C5: parsing the text produced by formatting any Time value yields
the value back, and formatting is total (a function of the whole
domain, so it never fails). -/
theorem claim_C5 (t : Nat) : parseTime (formatTime t) = Except.ok t := by
  unfold parseTime
  rw [parseTimeAll_formatTime]

theorem claim_C5_witness : parseTime (formatTime 3723456) = Except.ok 3723456 :=
  claim_C5 3723456

/-- C6: for every core command invocation, success prints the
serialized artifact on standard output with exit status zero, and any
failure exits with a non-zero status. -/
theorem claim_C6 (fs : Fs) (c : Command) :
    (∀ out, runCommand fs c = Except.ok out → procRun fs c = (0, out)) ∧
    (∀ e, runCommand fs c = Except.error e → (procRun fs c).1 ≠ 0) := by
  constructor
  · intro out h
    unfold procRun
    rw [h]
  · intro e h
    unfold procRun
    rw [h]
    simp

theorem claim_C6_witness :
    procRun fsAB (Command.clean "foreign.srt") = (0, formatFile fileA) ∧
    (procRun fsFail (Command.clean "foreign.srt")).1 ≠ 0 :=
  ⟨(claim_C6 fsAB (Command.clean "foreign.srt")).1 (formatFile fileA) rfl,
   (claim_C6 fsFail (Command.clean "foreign.srt")).2 (Err.ioError "missing") rfl⟩

/-- C7: for the clean and combine commands, errors from loading
(parsing and cleaning) propagate unchanged: the command fails exactly
when loading one of its inputs fails, with that same error value. -/
theorem claim_C7 (fs : Fs) (p1 p2 : FsPath) (e : Err) :
    (cmd_clean fs p1 = Except.error e ↔
      cleaned_from_path fs p1 = Except.error e) ∧
    (cmd_combine fs p1 p2 = Except.error e ↔
      (cleaned_from_path fs p1 = Except.error e ∨
        (∃ f1, cleaned_from_path fs p1 = Except.ok f1 ∧
          cleaned_from_path fs p2 = Except.error e))) := by
  constructor
  · unfold cmd_clean
    cases h1 : cleaned_from_path fs p1 with
    | ok f =>
      simp only [Except.map]
      constructor
      · intro h
        cases h
      · intro h
        cases h
    | error e2 =>
      simp only [Except.map]
      constructor
      · intro h
        cases h
        rfl
      · intro h
        cases h
        rfl
  · unfold cmd_combine
    cases h1 : cleaned_from_path fs p1 with
    | error e2 =>
      simp only [Except.bind]
      constructor
      · intro h
        cases h
        exact Or.inl rfl
      · intro h
        rcases h with h | ⟨f1, hf1, -⟩
        · cases h
          rfl
        · cases hf1
    | ok f =>
      simp only [Except.bind]
      cases h2 : cleaned_from_path fs p2 with
      | error e2 =>
        simp only [Except.bind]
        constructor
        · intro h
          cases h
          exact Or.inr ⟨f, rfl, rfl⟩
        · intro h
          rcases h with h | ⟨f1, hf1, hf2⟩
          · cases h
          · cases hf1
            cases hf2
            rfl
      | ok g =>
        simp only [Except.bind]
        constructor
        · intro h
          cases h
        · intro h
          rcases h with h | ⟨f1, hf1, hf2⟩
          · cases h
          · cases hf1
            cases hf2

theorem claim_C7_witness :
    cmd_clean fsFail "a.srt" = Except.error (Err.ioError "missing") :=
  (claim_C7 fsFail "a.srt" "b.srt" (Err.ioError "missing")).1.mpr rfl

/-- C8: `InvalidLanguageCode` can arise only on the translate path
(the ISO 639 lookup of the user-supplied native-lang argument); the
core clean/combine/parse pipeline never produces it. -/
theorem claim_C8 (fs : Fs)
    (hfs : ∀ q e, fs q = Except.error e →
      ∀ code, e ≠ Err.invalidLanguageCode code) :
    (∀ p code, cmd_clean fs p ≠ Except.error (Err.invalidLanguageCode code)) ∧
    (∀ p1 p2 code,
      cmd_combine fs p1 p2 ≠ Except.error (Err.invalidLanguageCode code)) ∧
    (∀ (recognized : String → Bool) svc p code f,
      cleaned_from_path fs p = Except.ok f → recognized code = false →
      cmd_translate fs recognized svc p code =
        Except.error (Err.invalidLanguageCode code)) := by
  have hload : ∀ p code, cleaned_from_path fs p ≠
      Except.error (Err.invalidLanguageCode code) := by
    intro p code h
    rcases cleaned_from_path_error h with h1 | ⟨pos, h1⟩
    · exact hfs p _ h1 code rfl
    · cases h1
  refine ⟨?_, ?_, ?_⟩
  · intro p code h
    unfold cmd_clean at h
    cases h1 : cleaned_from_path fs p with
    | ok f =>
      rw [h1] at h
      simp only [Except.map] at h
      cases h
    | error e2 =>
      rw [h1] at h
      simp only [Except.map] at h
      cases h
      exact hload p code h1
  · intro p1 p2 code h
    unfold cmd_combine at h
    cases h1 : cleaned_from_path fs p1 with
    | error e2 =>
      rw [h1] at h
      simp only [Except.bind] at h
      cases h
      exact hload p1 code h1
    | ok f =>
      rw [h1] at h
      simp only [Except.bind] at h
      cases h2 : cleaned_from_path fs p2 with
      | error e2 =>
        rw [h2] at h
        simp only [Except.bind] at h
        cases h
        exact hload p2 code h2
      | ok g =>
        rw [h2] at h
        simp only [Except.bind] at h
        cases h
  · intro recognized svc p code f hf hcode
    unfold cmd_translate
    rw [hf]
    simp only [Except.bind]
    unfold iso639
    rw [hcode]
    simp

theorem claim_C8_witness :
    cmd_translate fsAB (fun _ => false) (fun f _ => Except.ok f)
        "foreign.srt" "zz" =
      Except.error (Err.invalidLanguageCode "zz") :=
  (claim_C8 fsAB (by
      intro q e h code
      unfold fsAB at h
      split at h
      · cases h
      · cases h)).2.2
    (fun _ => false) (fun f _ => Except.ok f) "foreign.srt" "zz" fileA rfl rfl

/-- C9: the tracks export format never supplies native-language
subtitles: any `ExportFormat` named "tracks" is the `Tracks` variant,
which has no native-subtitles field, so `native_subs()` returns
`none`. -/
theorem claim_C9 (e : ExportFormat) (h : e.name = "tracks") :
    e.native_subs = none := by
  cases e with
  | csv v f n =>
    have h2 : ("csv" : String) = "tracks" := h
    exact absurd h2 (by decide)
  | review v f n =>
    have h2 : ("review" : String) = "tracks" := h
    exact absurd h2 (by decide)
  | tracks v f => rfl

theorem claim_C9_witness :
    (ExportFormat.tracks "video.mp4" "foreign.srt").native_subs = none :=
  claim_C9 (ExportFormat.tracks "video.mp4" "foreign.srt") rfl

/-- C10: the `panic!` arm of `cmd_export` is unreachable when the kind
comes from `ExportFormat::name`: every name is one of "csv", "review",
"tracks", each covered by an arm before the panic. -/
theorem claim_C10 (e : ExportFormat) :
    (e.name = "csv" ∨ e.name = "review" ∨ e.name = "tracks") ∧
    exportDispatch e.name ≠ none := by
  cases e with
  | csv v f n =>
    exact ⟨Or.inl rfl, (by decide : exportDispatch "csv" ≠ none)⟩
  | review v f n =>
    exact ⟨Or.inr (Or.inl rfl), (by decide : exportDispatch "review" ≠ none)⟩
  | tracks v f =>
    exact ⟨Or.inr (Or.inr rfl), (by decide : exportDispatch "tracks" ≠ none)⟩

end Substudy
